import Mathlib

/-!
Shallow embedding of the sample-encoding codec in `src/conversions.h`
(LabRecorder). Bytes are modelled as `Nat` values below 256, byte streams
as `List Nat` (the append-only sink is the returned list), strings as
`List Nat` of content bytes, and machine integers as `Nat` with explicit
`% 2^w` where C++ casts truncate.
-/

namespace Conversions

/-- `write_little_endian` for a `w`-byte integer: the `w` little-endian
bytes of `v` (low byte first); only the low `8*w` bits of `v` are kept,
matching the memory layout of a `w`-byte machine integer. -/
def write_little_endian : Nat → Nat → List Nat
  | 0, _ => []
  | w + 1, v => (v % 256) :: write_little_endian w (v / 256)

/-- `write_varlen_int` (conversions.h lines 109-120): emit a one-byte
width tag (1, 4 or 8) then the value in that many little-endian bytes.
The casts `static_cast<uint8_t>` / `uint32_t` / `uint64_t` are the
explicit `%` reductions. -/
def write_varlen_int (val : Nat) : List Nat :=
  if val < 256 then 1 :: [val % 256]
  else if val ≤ 4294967295 then 4 :: write_little_endian 4 (val % 2 ^ 32)
  else 8 :: write_little_endian 8 (val % 2 ^ 64)

/-- `write_sample_values<std::string>` (lines 129-140): for each string,
the varlen-encoded byte length followed by the raw content bytes. -/
def write_sample_values_str : List (List Nat) → List Nat
  | [] => []
  | s :: rest => (write_varlen_int s.length ++ s) ++ write_sample_values_str rest

/-- `write_sample_values` for a numeric element type of byte width `w`
(lines 90-95): the host is little-endian, so the raw `memcpy` of the
contiguous array is the concatenation of each value's little-endian
bytes. -/
def write_sample_values_num (w : Nat) (sample : List Nat) : List Nat :=
  (sample.map (write_little_endian w)).flatten

/-- `write_chunk7_samples` for a non-string element type (lines 142-145):
a pure delegation to `write_sample_values`. -/
def write_chunk7_samples_num (w : Nat) (sample : List Nat) : List Nat :=
  write_sample_values_num w sample

/-- The numeric batch encoding as the spec states it (§4.3, §6): the
fold that concatenates the scalar encoder's output per element, with no
framing. Stated separately from the source-derived definition so the
refinement claim C9 compares the two. -/
def numericBatchSpec (w : Nat) : List Nat → List Nat
  | [] => []
  | v :: rest => write_little_endian w v ++ numericBatchSpec w rest

/-- Maximum of a list of `uint64_t` lengths, as `*minmax.second` computes
it on a non-empty range (`listMax [] = 0` is never consulted: the caller
short-circuits on empty batches). -/
def listMax : List Nat → Nat
  | [] => 0
  | a :: l => max a (listMax l)

/-- Minimum of a list of lengths, as `*minmax.first` computes it on a
non-empty range. -/
def listMin : List Nat → Nat
  | [] => 0
  | [a] => a
  | a :: l => min a (listMin l)

/-- The flag byte (lines 163-167): `write_little_endian<int8_t>(dst, true)`
puts byte 1 when `minlen == maxlen`, else byte 0. -/
def chunk7_flag (strlens : List Nat) : Nat :=
  if listMin strlens = listMax strlens then 1 else 0

/-- The length list retained for emission (lines 163-167): on a uniform
batch `strlens` is cleared and the single shared length pushed back;
otherwise the per-string list is kept. -/
def chunk7_strlens2 (strlens : List Nat) : List Nat :=
  if listMin strlens = listMax strlens then [listMax strlens] else strlens

/-- Width selection (lines 169-172): `lenbytes = 1` unless `maxlen`
reaches `1<<8` (2), `1<<16` (4) or `1L<<32` (8). -/
def chunk7_lenbytes (maxlen : Nat) : Nat :=
  if maxlen ≥ 4294967296 then 8
  else if maxlen ≥ 65536 then 4
  else if maxlen ≥ 256 then 2
  else 1

/-- One arm of the length-list switch: each length cast to a `w`-byte
unsigned integer (`% 2^(8*w)`) and written little-endian. -/
def chunk7_arm (w : Nat) (lens : List Nat) : List Nat :=
  (lens.map (fun l => write_little_endian w (l % 2 ^ (8 * w)))).flatten

/-- The length-list `switch` (lines 175-184) exactly as written: the
`case` labels 1, 2, 4, 8 carry no `break`, so execution entering at the
selected width falls through every later (wider) arm as well. -/
def chunk7_lenlist (lenbytes : Nat) (lens : List Nat) : List Nat :=
  if lenbytes = 1 then
    chunk7_arm 1 lens ++ chunk7_arm 2 lens ++ chunk7_arm 4 lens ++ chunk7_arm 8 lens
  else if lenbytes = 2 then chunk7_arm 2 lens ++ chunk7_arm 4 lens ++ chunk7_arm 8 lens
  else if lenbytes = 4 then chunk7_arm 4 lens ++ chunk7_arm 8 lens
  else if lenbytes = 8 then chunk7_arm 8 lens
  else []

/-- `write_chunk7_samples<std::string>` (lines 152-189): empty batches
short-circuit to nothing; otherwise flag byte, width byte, the (fallthrough)
length list, then every string's raw bytes back to back. -/
def write_chunk7_samples_str (sample : List (List Nat)) : List Nat :=
  if sample.length = 0 then []
  else
    chunk7_flag (sample.map List.length) ::
      chunk7_lenbytes (listMax (sample.map List.length)) ::
        (chunk7_lenlist (chunk7_lenbytes (listMax (sample.map List.length)))
            (chunk7_strlens2 (sample.map List.length)) ++
          sample.flatten)

/-- The five-way result of `fp::fpclassify` plus the defensive default. -/
inductive FPClass where
  | nan
  | infinite
  | subnormal
  | zero
  | normal
  | other
deriving DecidableEq

/-- A floating-point input as the classified writer sees it: its class,
its native bit pattern (`traits::get_bits`), and its sign test `t < 0`. -/
structure FPValue where
  cls : FPClass
  bits : Nat
  negative : Bool
deriving DecidableEq

/-- The bit pattern chosen by the `switch` in the floating-point
`write_little_endian` overload (lines 51-61). `expMask`, `sigMask` and
`mantMask` are `traits::exponent`, `traits::sign` and `traits::mantissa`.
`uninit` is the value of the local variable `bits`, which is declared
without an initializer: the `FP_SUBNORMAL` arm is a bare `break`, so it
reaches the final write still holding that indeterminate value. -/
def float_bits (expMask sigMask mantMask uninit : Nat) (v : FPValue) : Nat :=
  match v.cls with
  | FPClass.nan => expMask ||| mantMask
  | FPClass.infinite => expMask ||| (if v.negative then sigMask else 0)
  | FPClass.subnormal => uninit
  | FPClass.zero => v.bits
  | FPClass.normal => v.bits
  | FPClass.other => 0

/-- The floating-point `write_little_endian` overload (lines 44-62):
classify, pick a bit pattern, write it little-endian in `w` bytes. -/
def write_little_endian_float (w expMask sigMask mantMask uninit : Nat)
    (v : FPValue) : List Nat :=
  write_little_endian w (float_bits expMask sigMask mantMask uninit v)

/-! ### Helper lemmas -/

theorem write_little_endian_length (w : Nat) : ∀ v, (write_little_endian w v).length = w := by
  induction w with
  | zero => intro v; rfl
  | succ n ih => intro v; simp [write_little_endian, ih]

theorem write_little_endian_mod (w : Nat) :
    ∀ v, write_little_endian w (v % 2 ^ (8 * w)) = write_little_endian w v := by
  induction w with
  | zero => intro v; rfl
  | succ n ih =>
    intro v
    have hpow : (2 : Nat) ^ (8 * (n + 1)) = 256 * 2 ^ (8 * n) := by
      rw [Nat.mul_succ, pow_add]; ring
    simp only [write_little_endian, hpow]
    refine congrArg₂ List.cons ?_ ?_
    · exact Nat.mod_mod_of_dvd v (dvd_mul_right 256 _)
    · rw [Nat.mod_mul_right_div_self]
      exact ih (v / 256)

theorem le_listMax {l : List Nat} {a : Nat} (h : a ∈ l) : a ≤ listMax l := by
  induction l with
  | nil => cases h
  | cons b t ih =>
    rcases List.mem_cons.mp h with h | h
    · subst h; exact le_max_left _ _
    · exact le_trans (ih h) (le_max_right _ _)

theorem listMax_lt {B : Nat} (hB : 0 < B) :
    ∀ {l : List Nat}, (∀ a ∈ l, a < B) → listMax l < B := by
  intro l
  induction l with
  | nil => intro _; simpa [listMax] using hB
  | cons b t ih =>
    intro h
    simp only [listMax, max_lt_iff]
    exact ⟨h b (List.mem_cons_self _ _), ih fun a ha => h a (List.mem_cons_of_mem _ ha)⟩

theorem mem_chunk7_strlens2_le {s : List Nat} {l : Nat}
    (h : l ∈ chunk7_strlens2 s) : l ≤ listMax s := by
  unfold chunk7_strlens2 at h
  split at h
  · simp only [List.mem_singleton] at h; subst h; exact le_refl _
  · exact le_listMax h

theorem chunk7_lenbytes_eq (m : Nat) :
    chunk7_lenbytes m =
      if m < 2 ^ 8 then 1 else if m < 2 ^ 16 then 2 else if m < 2 ^ 32 then 4 else 8 := by
  have h8 : (2 : Nat) ^ 8 = 256 := by norm_num
  have h16 : (2 : Nat) ^ 16 = 65536 := by norm_num
  have h32 : (2 : Nat) ^ 32 = 4294967296 := by norm_num
  rw [h8, h16, h32]
  unfold chunk7_lenbytes
  split_ifs <;> omega

theorem chunk7_lenbytes_holds {m : Nat} (hm : m < 2 ^ 64) :
    m < 2 ^ (8 * chunk7_lenbytes m) := by
  have h64 : (2 : Nat) ^ 64 = 18446744073709551616 := by norm_num
  unfold chunk7_lenbytes
  split_ifs with h1 h2 h3
  · have : (2 : Nat) ^ (8 * 8) = 18446744073709551616 := by norm_num
    omega
  · have : (2 : Nat) ^ (8 * 4) = 4294967296 := by norm_num
    omega
  · have : (2 : Nat) ^ (8 * 2) = 65536 := by norm_num
    omega
  · have : (2 : Nat) ^ (8 * 1) = 256 := by norm_num
    omega

theorem write_chunk7_samples_str_cons (sample : List (List Nat)) (hne : sample ≠ []) :
    write_chunk7_samples_str sample =
      chunk7_flag (sample.map List.length) ::
        chunk7_lenbytes (listMax (sample.map List.length)) ::
          (chunk7_lenlist (chunk7_lenbytes (listMax (sample.map List.length)))
              (chunk7_strlens2 (sample.map List.length)) ++
            sample.flatten) := by
  unfold write_chunk7_samples_str
  rw [if_neg (by simpa using hne)]

/-! ### Claim theorems -/

/-- C2: for every unsigned 64-bit value `v`, `write_varlen_int` emits a
one-byte width tag followed by `v` in that many little-endian bytes; the
width is 1 if `v < 256`, else 4 if `v ≤ 4294967295`, else 8; the tag
always equals the number of following bytes and is never 2, and `v` fits
the chosen width without truncation. -/
theorem varlen_int_tagged_width (v w : Nat) (hv : v < 2 ^ 64)
    (hw : w = if v < 256 then 1 else if v ≤ 4294967295 then 4 else 8) :
    write_varlen_int v = w :: write_little_endian w v ∧
      (write_little_endian w v).length = w ∧ w ≠ 2 ∧ v < 2 ^ (8 * w) := by
  by_cases h1 : v < 256
  · rw [hw, if_pos h1]
    refine ⟨?_, write_little_endian_length 1 v, by decide, ?_⟩
    · simp [write_varlen_int, if_pos h1, write_little_endian]
    · have : (2 : Nat) ^ (8 * 1) = 256 := by norm_num
      omega
  · by_cases h2 : v ≤ 4294967295
    · rw [hw, if_neg h1, if_pos h2]
      have hcast : write_little_endian 4 (v % 4294967296) = write_little_endian 4 v := by
        have h32 : (4294967296 : Nat) = 2 ^ (8 * 4) := by norm_num
        rw [h32, write_little_endian_mod]
      refine ⟨?_, write_little_endian_length 4 v, by decide, ?_⟩
      · simp [write_varlen_int, if_neg h1, if_pos h2, hcast]
      · have : (2 : Nat) ^ (8 * 4) = 4294967296 := by norm_num
        omega
    · rw [hw, if_neg h1, if_neg h2]
      have hcast : write_little_endian 8 (v % 18446744073709551616) = write_little_endian 8 v := by
        have h64 : (18446744073709551616 : Nat) = 2 ^ (8 * 8) := by norm_num
        rw [h64, write_little_endian_mod]
      refine ⟨?_, write_little_endian_length 8 v, by decide, ?_⟩
      · simp [write_varlen_int, if_neg h1, if_neg h2, hcast]
      · have : (2 : Nat) ^ (8 * 8) = 2 ^ 64 := by norm_num
        omega

theorem varlen_int_tagged_width_witness :
    write_varlen_int 300 = 4 :: write_little_endian 4 300 ∧
      (write_little_endian 4 300).length = 4 ∧ (4 : Nat) ≠ 2 ∧ 300 < 2 ^ (8 * 4) :=
  varlen_int_tagged_width 300 4 (by norm_num) (by norm_num)

/-- C3: for every non-empty chunk7 string batch, the emitted width byte
(the second output byte) is the smallest of {1,2,4,8} able to hold the
maximum string length, with strict less-than against power-of-two
boundaries; a maximum of exactly 256 selects width 2. -/
theorem chunk7_width_byte_smallest (sample : List (List Nat)) (m : Nat)
    (hne : sample ≠ []) (hm : m = listMax (sample.map List.length)) :
    (write_chunk7_samples_str sample).get? 1 = some (chunk7_lenbytes m) ∧
      chunk7_lenbytes m =
        (if m < 2 ^ 8 then 1 else if m < 2 ^ 16 then 2 else if m < 2 ^ 32 then 4 else 8) ∧
      (m = 256 → chunk7_lenbytes m = 2) := by
  refine ⟨?_, chunk7_lenbytes_eq m, ?_⟩
  · rw [write_chunk7_samples_str_cons sample hne, hm]
    rfl
  · intro h
    rw [h]
    decide

theorem chunk7_width_byte_smallest_witness :
    (write_chunk7_samples_str [[97]]).get? 1 = some (chunk7_lenbytes 1) ∧
      chunk7_lenbytes 1 =
        (if 1 < 2 ^ 8 then 1 else if 1 < 2 ^ 16 then 2 else if 1 < 2 ^ 32 then 4 else 8) ∧
      ((1 : Nat) = 256 → chunk7_lenbytes 1 = 2) :=
  chunk7_width_byte_smallest [[97]] 1 (by decide) (by decide)

/-- C5: chunk7 string-batch encoding of an empty batch appends zero
bytes to the sink — not even the flag byte. -/
theorem chunk7_empty_batch : write_chunk7_samples_str [] = [] := rfl

/-- C4 counterexample: the batch with one string of length 1 (all
lengths below 256) is encoded in 3 bytes — varlen tag, one length byte,
one content byte — not the Σ(1 + Li) = 2 bytes the claim asserts. -/
theorem plain_string_byte_count_counterexample :
    (∀ s ∈ [[97]], List.length s < 256) ∧
      (write_sample_values_str [[97]]).length ≠
        (List.map (fun s => 1 + List.length s) [[97]]).sum := by
  decide

/-- C4 (amended): for every batch of strings whose byte lengths are all
below 256, plain-mode string encoding appends exactly Σ(2 + Li) bytes:
per string, the varlen tag byte, one length byte, and the content. -/
theorem plain_string_byte_count (sample : List (List Nat))
    (h : ∀ s ∈ sample, s.length < 256) :
    (write_sample_values_str sample).length =
      (sample.map (fun s => 2 + s.length)).sum := by
  induction sample with
  | nil => rfl
  | cons s rest ih =>
    have hs : s.length < 256 := h s (List.mem_cons_self _ _)
    have hrest := ih fun t ht => h t (List.mem_cons_of_mem _ ht)
    simp [write_sample_values_str, write_varlen_int, if_pos hs, hrest]
    omega

theorem plain_string_byte_count_witness :
    (write_sample_values_str [[97], [98, 99]]).length =
      (List.map (fun s => 2 + List.length s) [[97], [98, 99]]).sum :=
  plain_string_byte_count [[97], [98, 99]] (by decide)

/-- C6: for every non-empty chunk7 string batch, the first emitted byte
is 1 exactly when the minimum string length equals the maximum; when
uniform, the retained length list is the single shared length as a
one-element list; a batch of exactly one string always satisfies the
uniform condition. -/
theorem chunk7_flag_uniform (sample : List (List Nat)) (strlens : List Nat)
    (hne : sample ≠ []) (hs : strlens = sample.map List.length) :
    (write_chunk7_samples_str sample).get? 0 =
        some (if listMin strlens = listMax strlens then 1 else 0) ∧
      (listMin strlens = listMax strlens → chunk7_strlens2 strlens = [listMax strlens]) ∧
      (sample.length = 1 → listMin strlens = listMax strlens) := by
  subst hs
  refine ⟨?_, ?_, ?_⟩
  · rw [write_chunk7_samples_str_cons sample hne]
    rfl
  · intro huni
    unfold chunk7_strlens2
    rw [if_pos huni]
  · intro hlen
    rcases List.length_eq_one.mp hlen with ⟨s, rfl⟩
    simp [listMin, listMax]

theorem chunk7_flag_uniform_witness :
    (write_chunk7_samples_str [[97], [98]]).get? 0 =
        some (if listMin [1, 1] = listMax [1, 1] then 1 else 0) ∧
      (listMin [1, 1] = listMax [1, 1] → chunk7_strlens2 [1, 1] = [listMax [1, 1]]) ∧
      (List.length [[97], [98]] = 1 → listMin [1, 1] = listMax [1, 1]) :=
  chunk7_flag_uniform [[97], [98]] [1, 1] (by decide) (by decide)

/-- C9: for every non-string element width and every value sequence,
`write_chunk7_samples` produces byte-for-byte the output of the plain
numeric batch encoder `write_sample_values`, which itself is the plain
concatenation of per-element scalar encodings with no framing. -/
theorem chunk7_numeric_delegates (w : Nat) (sample : List Nat) :
    write_chunk7_samples_num w sample = write_sample_values_num w sample ∧
      write_chunk7_samples_num w sample = numericBatchSpec w sample := by
  refine ⟨rfl, ?_⟩
  induction sample with
  | nil => rfl
  | cons v rest ih =>
    simp only [write_chunk7_samples_num, write_sample_values_num, numericBatchSpec,
      List.map_cons, List.flatten_cons] at *
    rw [ih]

/-- C10: in chunk7 string-batch encoding, for each switch arm actually
executed (each width `c` in {1,2,4,8} at or after the selected
`lenbytes`, by fallthrough), every entry of the retained length list is
below `2^(8*c)`, so the `static_cast` in that arm does not wrap the
length modulo `2^(8*c)`. -/
theorem chunk7_lenlist_no_truncation (sample : List (List Nat)) (c l : Nat)
    (_hne : sample ≠ []) (hb : ∀ s ∈ sample, s.length < 2 ^ 64)
    (_hc : c = 1 ∨ c = 2 ∨ c = 4 ∨ c = 8)
    (hexec : chunk7_lenbytes (listMax (sample.map List.length)) ≤ c)
    (hl : l ∈ chunk7_strlens2 (sample.map List.length)) :
    l % 2 ^ (8 * c) = l := by
  apply Nat.mod_eq_of_lt
  have hmax : listMax (sample.map List.length) < 2 ^ 64 := by
    apply listMax_lt (by positivity)
    intro a ha
    rcases List.mem_map.mp ha with ⟨s, hs, rfl⟩
    exact hb s hs
  have hle : l ≤ listMax (sample.map List.length) := mem_chunk7_strlens2_le hl
  have hfit : listMax (sample.map List.length) <
      2 ^ (8 * chunk7_lenbytes (listMax (sample.map List.length))) :=
    chunk7_lenbytes_holds hmax
  have hmono : 2 ^ (8 * chunk7_lenbytes (listMax (sample.map List.length))) ≤ 2 ^ (8 * c) :=
    Nat.pow_le_pow_right (by norm_num) (by omega)
  omega

theorem chunk7_lenlist_no_truncation_witness : 1 % 2 ^ (8 * 8) = 1 :=
  chunk7_lenlist_no_truncation [[97]] 8 1 (by decide) (by decide) (by decide)
    (by decide) (by decide)

/-- C1 (code evaluation): on the one-string batch ["a"], the switch's
missing breaks make the encoder emit the length list four times — at
widths 1, 2, 4 and 8 — after the flag and width bytes, instead of once
at the selected width 1; the claimed 4-byte output is not produced. -/
theorem chunk7_lenlist_fallthrough_eval :
    write_chunk7_samples_str [[97]] =
        [1, 1] ++ ([1] ++ [1, 0] ++ [1, 0, 0, 0] ++ [1, 0, 0, 0, 0, 0, 0, 0]) ++ [97] ∧
      write_chunk7_samples_str [[97]] ≠ [1, 1] ++ [1] ++ [97] := by
  decide

/-- C7 (code evaluation): the batch ["ab","cd","ef"] does not produce
the claimed 9 bytes [1,1,2,a,b,c,d,e,f]; the fallthrough emits the single
length entry 2 at widths 1, 2, 4 and 8, for 23 bytes total. -/
theorem chunk7_uniform_batch_eval :
    write_chunk7_samples_str [[97, 98], [99, 100], [101, 102]] =
        [1, 1, 2, 2, 0, 2, 0, 0, 0, 2, 0, 0, 0, 0, 0, 0, 0, 97, 98, 99, 100, 101, 102] ∧
      (write_chunk7_samples_str [[97, 98], [99, 100], [101, 102]]).length = 23 ∧
      write_chunk7_samples_str [[97, 98], [99, 100], [101, 102]] ≠
        [1, 1, 2, 97, 98, 99, 100, 101, 102] := by
  decide

/-- C8 (code evaluation): in the classified float path (float: exponent
mask 2139095040, sign mask 2147483648, mantissa mask 8388607), a Normal
value is emitted as its own bit pattern for every possible leftover value
of the uninitialized local, but a Subnormal value (native bits 1, the
smallest positive subnormal) is emitted as the uninitialized local's
value — here 0 — and not as its native bit pattern. -/
theorem float_subnormal_bits_eval :
    (∀ b : Nat,
        write_little_endian_float 4 2139095040 2147483648 8388607 b
            ⟨FPClass.normal, 1065353216, false⟩ =
          write_little_endian 4 1065353216) ∧
      write_little_endian_float 4 2139095040 2147483648 8388607 0
          ⟨FPClass.subnormal, 1, false⟩ ≠
        write_little_endian 4 1 := by
  constructor
  · intro b
    rfl
  · decide

end Conversions
